import Mathlib

/-!
Verification development for the multi-vault knowledge-base core of the
ghost-ai-assistant repository (class `MultiVaultManager`): document parsing
(title, front-matter, tags), vault registry, recursive markdown scanning,
cross-vault search, and cross-vault index generation.

The TypeScript source is shallowly embedded: JavaScript regular-expression
behaviour is hand-compiled into explicit character-list scanners, `JSON.parse`
is modelled by a strict JSON parser over `List Char`, the filesystem is
modelled by an explicit tree structure, and `console.warn`/`console.error`
calls are modelled as an accumulated log list.
-/

namespace GhostAI

/-! ## Models of JavaScript string primitives -/

/-- The ECMAScript line terminators: LF, CR, LINE SEPARATOR (U+2028) and
PARAGRAPH SEPARATOR (U+2029).  `.` matches none of them, and with the `m`
flag `^` matches after and `$` before each of them. -/
def jsLineTerm (c : Char) : Bool :=
  c = '\n' || c = '\r' || c = Char.ofNat 0x2028 || c = Char.ofNat 0x2029

/-- What `.` (without the `s` flag) can match: anything but a line
terminator. -/
def jsDotOk (c : Char) : Bool := !(jsLineTerm c)

/-- JavaScript `\s` character class: tab, LF, VT, FF, CR, space, NBSP,
OGHAM SPACE MARK, the U+2000–U+200A spaces, LINE and PARAGRAPH SEPARATOR,
NARROW NO-BREAK SPACE, MEDIUM MATHEMATICAL SPACE, IDEOGRAPHIC SPACE and
ZERO WIDTH NO-BREAK SPACE. -/
def jsWs (c : Char) : Bool :=
  c = ' ' || c = '\t' || c = '\n' || c = '\r' || c = Char.ofNat 11 || c = Char.ofNat 12 ||
    c = Char.ofNat 0xA0 || c = Char.ofNat 0x1680 ||
    (Char.ofNat 0x2000 ≤ c && c ≤ Char.ofNat 0x200A) ||
    c = Char.ofNat 0x2028 || c = Char.ofNat 0x2029 || c = Char.ofNat 0x202F ||
    c = Char.ofNat 0x205F || c = Char.ofNat 0x3000 || c = Char.ofNat 0xFEFF

/-- JavaScript `String.prototype.trim` on a character list: strip leading and
trailing characters of the WhiteSpace and LineTerminator productions (all of
which the `jsWs` set above contains). -/
def jsTrim (l : List Char) : List Char :=
  ((l.dropWhile jsWs).reverse.dropWhile jsWs).reverse

/-- JavaScript `\w` character class: `[A-Za-z0-9_]`. -/
def isWordChar (c : Char) : Bool :=
  ('a' ≤ c && c ≤ 'z') || ('A' ≤ c && c ≤ 'Z') || ('0' ≤ c && c ≤ '9') || c = '_'

/-- The character class `[a-zA-Z0-9_\-\s]` used by the inline-tag regular
expression in `extractTags`.  Note that it contains `\s`, so whitespace
(including newlines) is part of a tag run. -/
def isTagChar (c : Char) : Bool :=
  ('a' ≤ c && c ≤ 'z') || ('A' ≤ c && c ≤ 'Z') || ('0' ≤ c && c ≤ '9') ||
    c = '_' || c = '-' || jsWs c

/-- ASCII lower-casing of one character, as `String.prototype.toLowerCase`
acts on the ASCII range (the inputs considered here are ASCII). -/
def jsLower (c : Char) : Char :=
  if 'A' ≤ c && c ≤ 'Z' then Char.ofNat (c.toNat + 32) else c

def lowerList (l : List Char) : List Char := l.map jsLower

/-- Suffix test on code points (`String.prototype.endsWith` / a `.md`
extension check). -/
def strEndsWith (s t : String) : Bool :=
  t.data.reverse.isPrefixOf s.data.reverse

/-- `needle.isInfixOf hay` as a Bool, modelling `String.prototype.includes`. -/
def containsSub (hay needle : List Char) : Bool :=
  match hay with
  | [] => needle.isEmpty
  | _ :: rest => needle.isPrefixOf hay || containsSub rest needle

/-- JavaScript `String.prototype.replace(pattern, '')` with a *string* pattern:
remove the first occurrence only.  With an empty pattern the replacement is
inserted in front, which for an empty replacement is the identity. -/
def removeFirst (s pat : List Char) : List Char :=
  match s with
  | [] => []
  | c :: rest =>
    if pat.isPrefixOf s then s.drop pat.length
    else c :: removeFirst rest pat

/-- The regex replace `/^\//` with the empty string: drop one leading slash. -/
def dropLeadSlash (s : List Char) : List Char :=
  match s with
  | '/' :: rest => rest
  | _ => s

/-! ## Model of `JSON.parse`

`extractFrontmatter` feeds every front-matter value through `JSON.parse`,
falling back to a quote-stripped raw string when parsing fails.  We model
JSON values and a strict JSON parser.  Numbers keep their source lexeme
(no claim computes with numeric values).  Lone-surrogate `\u` escapes are
the one unmodelled corner (no claim involves them). -/

inductive JVal where
  | jnull : JVal
  | jbool (b : Bool) : JVal
  | jnum (lexeme : String) : JVal
  | jstr (s : String) : JVal
  | jarr (elems : List JVal) : JVal
  | jobj (fields : List (String × JVal)) : JVal

/-- JSON insignificant whitespace (strict JSON: space, tab, LF, CR). -/
def jsonWs (c : Char) : Bool :=
  c = ' ' || c = '\t' || c = '\n' || c = '\r'

def isHex (c : Char) : Bool :=
  ('0' ≤ c && c ≤ '9') || ('a' ≤ c && c ≤ 'f') || ('A' ≤ c && c ≤ 'F')

def hexVal (c : Char) : Nat :=
  if '0' ≤ c && c ≤ '9' then c.toNat - '0'.toNat
  else if 'a' ≤ c && c ≤ 'f' then c.toNat - 'a'.toNat + 10
  else c.toNat - 'A'.toNat + 10

/-- Single-character escapes permitted inside JSON strings. -/
def escChar (c : Char) : Option Char :=
  if c = '"' then some '"'
  else if c = '\\' then some '\\'
  else if c = '/' then some '/'
  else if c = 'b' then some (Char.ofNat 8)
  else if c = 'f' then some (Char.ofNat 12)
  else if c = 'n' then some '\n'
  else if c = 'r' then some '\r'
  else if c = 't' then some '\t'
  else none

/-- Parse the body of a JSON string (the opening quote already consumed). -/
def parseJStrAux (acc : List Char) : List Char → Option (List Char × List Char)
  | [] => none
  | c :: r =>
    if c = '"' then some (acc.reverse, r)
    else if c = '\\' then
      match r with
      | 'u' :: h1 :: h2 :: h3 :: h4 :: r2 =>
        if isHex h1 && isHex h2 && isHex h3 && isHex h4 then
          parseJStrAux
            (Char.ofNat (((hexVal h1 * 16 + hexVal h2) * 16 + hexVal h3) * 16 + hexVal h4) :: acc)
            r2
        else none
      | e :: r2 =>
        match escChar e with
        | some ec => parseJStrAux (ec :: acc) r2
        | none => none
      | [] => none
    else if c.toNat < 32 then none
    else parseJStrAux (c :: acc) r

/-- Optional fraction part of a JSON number (empty when absent; `none` on a
dot not followed by digits, which strict JSON rejects). -/
def parseFrac (cs : List Char) : Option (List Char × List Char) :=
  match cs with
  | '.' :: r =>
    let ds := r.takeWhile Char.isDigit
    if ds.isEmpty then none else some ('.' :: ds, r.drop ds.length)
  | _ => some ([], cs)

/-- Optional exponent part of a JSON number. -/
def parseExp (cs : List Char) : Option (List Char × List Char) :=
  match cs with
  | c :: r =>
    if c = 'e' || c = 'E' then
      let sgr : List Char × List Char :=
        match r with
        | '+' :: rr => (['+'], rr)
        | '-' :: rr => (['-'], rr)
        | _ => ([], r)
      let ds := sgr.2.takeWhile Char.isDigit
      if ds.isEmpty then none else some (c :: (sgr.1 ++ ds), sgr.2.drop ds.length)
    else some ([], cs)
  | [] => some ([], cs)

/-- Parse a strict JSON number, keeping the lexeme. -/
def parseJNum (cs : List Char) : Option (JVal × List Char) :=
  let sg : List Char × List Char :=
    match cs with
    | '-' :: r => (['-'], r)
    | _ => ([], cs)
  match sg.2 with
  | [] => none
  | c :: r =>
    let intRes : Option (List Char × List Char) :=
      if c = '0' then some (['0'], r)
      else if c.isDigit then
        let ds := r.takeWhile Char.isDigit
        some (c :: ds, r.drop ds.length)
      else none
    match intRes with
    | none => none
    | some (ip, cs1) =>
      match parseFrac cs1 with
      | none => none
      | some (fp, cs2) =>
        match parseExp cs2 with
        | none => none
        | some (ep, cs3) =>
          some (.jnum (sg.1 ++ ip ++ fp ++ ep).asString, cs3)

/-- Parser mode: a top-level value, the element list of a non-empty array
(wrapped as `jarr`), or the field list of a non-empty object (wrapped as
`jobj`). -/
inductive JMode where
  | top : JMode
  | arr : JMode
  | obj : JMode

/-- Fuel-indexed recursive-descent JSON parser (the fuel only bounds the
nesting; `jsonParse` supplies enough for any input). -/
def parseJ : Nat → JMode → List Char → Option (JVal × List Char)
  | 0, _, _ => none
  | fuel + 1, .top, cs =>
    match cs.dropWhile jsonWs with
    | [] => none
    | 'n' :: 'u' :: 'l' :: 'l' :: r => some (.jnull, r)
    | 't' :: 'r' :: 'u' :: 'e' :: r => some (.jbool true, r)
    | 'f' :: 'a' :: 'l' :: 's' :: 'e' :: r => some (.jbool false, r)
    | '"' :: r =>
      match parseJStrAux [] r with
      | some (s, r2) => some (.jstr s.asString, r2)
      | none => none
    | '[' :: r =>
      match r.dropWhile jsonWs with
      | ']' :: r2 => some (.jarr [], r2)
      | _ => parseJ fuel .arr r
    | c :: r =>
      if c = Char.ofNat 123 then
        match r.dropWhile jsonWs with
        | d :: r2 =>
          if d = Char.ofNat 125 then some (.jobj [], r2)
          else parseJ fuel .obj (d :: r2)
        | [] => none
      else parseJNum (c :: r)
  | fuel + 1, .arr, cs =>
    match parseJ fuel .top cs with
    | none => none
    | some (v, rest) =>
      match rest.dropWhile jsonWs with
      | ']' :: r => some (.jarr [v], r)
      | ',' :: r =>
        match parseJ fuel .arr r with
        | some (.jarr vs, r2) => some (.jarr (v :: vs), r2)
        | _ => none
      | _ => none
  | fuel + 1, .obj, cs =>
    match cs.dropWhile jsonWs with
    | '"' :: r =>
      match parseJStrAux [] r with
      | none => none
      | some (k, r2) =>
        match r2.dropWhile jsonWs with
        | ':' :: r3 =>
          match parseJ fuel .top r3 with
          | none => none
          | some (v, r4) =>
            match r4.dropWhile jsonWs with
            | ',' :: r5 =>
              match parseJ fuel .obj r5 with
              | some (.jobj fs, r6) => some (.jobj ((k.asString, v) :: fs), r6)
              | _ => none
            | d :: r5 =>
              if d = Char.ofNat 125 then some (.jobj [(k.asString, v)], r5) else none
            | [] => none
        | _ => none
    | _ => none

/-- Model of `JSON.parse(s)`: parse one value and require only whitespace to
remain; `none` models a thrown `SyntaxError`. -/
def jsonParse (s : String) : Option JVal :=
  match parseJ (2 * s.length + 2) .top s.data with
  | some (v, rest) => if (rest.dropWhile jsonWs).isEmpty then some v else none
  | none => none

/-- A JSON number is numerically zero iff every mantissa digit is `0`. -/
def jnumIsZero (lex : String) : Bool :=
  (lex.data.takeWhile (fun c => !(c = 'e' || c = 'E'))).all fun c => !c.isDigit || c = '0'

/-- JavaScript truthiness of a front-matter value. -/
def jvTruthy : JVal → Bool
  | .jnull => false
  | .jbool b => b
  | .jstr s => !(s = "")
  | .jnum lex => !(jnumIsZero lex)
  | .jarr _ => true
  | .jobj _ => true

/-- `record[k] = v` on a JavaScript object modelled as an insertion-ordered
association list: overwrite in place, or append a fresh key. -/
def setKey {α : Type} (fm : List (String × α)) (k : String) (v : α) : List (String × α) :=
  match fm with
  | [] => [(k, v)]
  | (k0, v0) :: rest => if k0 = k then (k0, v) :: rest else (k0, v0) :: setKey rest k v

/-- `record[k]` lookup. -/
def getKey {α : Type} (fm : List (String × α)) (k : String) : Option α :=
  match fm with
  | [] => none
  | (k0, v0) :: rest => if k0 = k then some v0 else getKey rest k

/-! ## Data model (`VaultConfig`, `VaultNote`) -/

inductive VaultType where
  | ghost : VaultType
  | external : VaultType
deriving DecidableEq, Repr

structure VaultConfig where
  name : String
  path : String
  enabled : Bool
  type : VaultType
deriving DecidableEq, Repr

structure VaultNote where
  vault : String
  path : String
  title : String
  content : String
  tags : List String
  frontmatter : List (String × JVal)
  lastModified : Nat
  size : Nat

/-! ## Title extraction (`extractTitle`, source lines 201–211) -/

/-- Backtracking for the `\s+(.+)$` tail of the H1 regex `/^#\s+(.+)$/m`:
`rest` is the text after the `#`; the whitespace run (which may cross line
terminators, since `\s` matches them) is tried greedily and shrunk until
the `.+` group can match at least one non-line-terminator character; the
multiline `$` then holds right after the maximal `.`-run. -/
def tryH1K (rest : List Char) : Nat → Option (List Char)
  | 0 => none
  | k + 1 =>
    let ln := (rest.drop (k + 1)).takeWhile jsDotOk
    if ln.isEmpty then tryH1K rest k else some ln

def tryH1 (rest : List Char) : Option (List Char) :=
  tryH1K rest (rest.takeWhile jsWs).length

/-- Leftmost match of `/^#\s+(.+)$/m`: a match can start only at a line
start — the start of input or the position after any line terminator
(tracked by `atStart`); returns the captured group. -/
def findH1 : List Char → Bool → Option (List Char)
  | [], _ => none
  | c :: cs, atStart =>
    if atStart && c = '#' then
      match tryH1 cs with
      | some g => some g
      | none => findH1 cs false
    else findH1 cs (jsLineTerm c)

/-- Node `path.basename(p, '.md')`: the final path component (ignoring
trailing separators), with a `.md` suffix stripped unless it is the whole
component. -/
def baseNameMd (p : String) : String :=
  let revNoSlash := p.data.reverse.dropWhile (fun c => c = '/')
  let b := ((revNoSlash.takeWhile (fun c => !(c = '/'))).reverse).asString
  if !(b = ".md") && strEndsWith b ".md" then (b.data.take (b.length - 3)).asString else b

/-- The filename fallback of `extractTitle`: basename without the note
extension, `-` and `_` replaced by spaces, case preserved. -/
def fallbackTitle (relativePath : String) : String :=
  let filename := baseNameMd relativePath
  ((filename.data.map fun c => if c = '-' then ' ' else c).map
    fun c => if c = '_' then ' ' else c).asString

/-- `extractTitle`: the trimmed H1 capture, else the filename fallback. -/
def extractTitle (content relativePath : String) : String :=
  match findH1 content.data true with
  | some g => (jsTrim g).asString
  | none => fallbackTitle relativePath

/-! ## Front-matter extraction (`extractFrontmatter`, source lines 216–238) -/

/-- Text strictly before the first occurrence of `\n---` (the lazy capture
group of the front-matter regex); `none` when no closing delimiter exists. -/
def fmBody : List Char → Option (List Char)
  | [] => none
  | c :: cs =>
    if ['\n', '-', '-', '-'].isPrefixOf (c :: cs) then some []
    else
      match fmBody cs with
      | some b => some (c :: b)
      | none => none

/-- The front-matter block of a document, when its content starts with the
opening `---` delimiter line and a closing delimiter follows. -/
def fmBlock (content : String) : Option (List Char) :=
  match content.data with
  | '-' :: '-' :: '-' :: '\n' :: rest => fmBody rest
  | _ => none

/-- JavaScript `split('\n')`. -/
def splitNl : List Char → List (List Char)
  | [] => [[]]
  | c :: rest =>
    if c = '\n' then [] :: splitNl rest
    else
      match splitNl rest with
      | [] => [[c]]
      | l :: ls => (c :: l) :: ls

/-- Backtracking for the `\s*(.+)$` tail of the front-matter line regex
(no `m` flag): `\s*` is tried greedily from the maximal whitespace run down
to the empty match; `.+` must then consume everything up to the end of the
input, so it succeeds only when that remainder is non-empty and free of
line terminators. -/
def fmLineK (rest : List Char) : Nat → Option (List Char)
  | 0 =>
    if !rest.isEmpty && rest.all jsDotOk then some rest else none
  | k + 1 =>
    let v := rest.drop (k + 1)
    if !v.isEmpty && v.all jsDotOk then some v else fmLineK rest k

/-- One front-matter line against `/^(\w+):\s*(.+)$/`, including the
regex's backtracking: when the remainder after the greedy `\s*` cannot
carry `.+` to the end of the input, `\s*` gives characters back one at a
time. -/
def parseFmLine (line : List Char) : Option (String × String) :=
  let key := line.takeWhile isWordChar
  if key.isEmpty then none
  else
    match line.drop key.length with
    | ':' :: rest =>
      match fmLineK rest (rest.takeWhile jsWs).length with
      | some v => some (key.asString, v.asString)
      | none => none
    | _ => none

/-- The fallback `value.replace(/^["']|["']$/g, '')`: strip one leading and
one trailing quote character, independently. -/
def stripQuotes (s : List Char) : List Char :=
  let s1 :=
    match s with
    | c :: rest => if c = '"' || c = '\'' then rest else s
    | [] => s
  match s1.getLast? with
  | some c => if c = '"' || c = '\'' then s1.dropLast else s1
  | none => s1

/-- A front-matter value: `JSON.parse` it, falling back to the raw string
with surrounding quotes stripped. -/
def fmValue (vstr : String) : JVal :=
  match jsonParse vstr with
  | some v => v
  | none => .jstr (stripQuotes vstr.data).asString

def extractFrontmatter (content : String) : List (String × JVal) :=
  match fmBlock content with
  | none => []
  | some block =>
    (splitNl block).foldl
      (fun fm line =>
        match parseFmLine line with
        | some (k, v) => setKey fm k (fmValue v)
        | none => fm)
      []

/-! ## Tag extraction (`extractTags`, source lines 243–278) -/

/-- JavaScript `Set` insertion: append when absent, keeping insertion order. -/
def addTag (acc : List String) (t : String) : List String :=
  if acc.contains t then acc else acc ++ [t]

/-- `tag.replace(/^#/, '')`. -/
def stripHash (t : String) : String :=
  match t.data with
  | '#' :: rest => rest.asString
  | _ => t

/-- Tags contributed by the front-matter `tags` field: a truthy value,
wrapped into an array when it is not one, keeping string elements only. -/
def fmTagList (fm : List (String × JVal)) : List String :=
  match getKey fm "tags" with
  | some v =>
    if jvTruthy v then
      let vals :=
        match v with
        | .jarr xs => xs
        | _ => [v]
      vals.filterMap fun x =>
        match x with
        | .jstr s => some (stripHash s)
        | _ => none
    else []
  | none => []

/-- Fuel-indexed scan for `/#([a-zA-Z0-9_\-\s]+)/g` (the fuel only bounds
the scan length; `inlineTags` supplies enough). -/
def inlineTagsF : Nat → List Char → List String
  | 0, _ => []
  | _, [] => []
  | fuel + 1, c :: cs =>
    if c = '#' then
      let run := cs.takeWhile isTagChar
      if run.isEmpty then inlineTagsF fuel cs
      else (jsTrim run).asString :: inlineTagsF fuel (cs.drop run.length)
    else inlineTagsF fuel cs

/-- All captures of `/#([a-zA-Z0-9_\-\s]+)/g` in scan order, each trimmed.
After a successful match the scan resumes at the end of the match. -/
def inlineTags (l : List Char) : List String :=
  inlineTagsF l.length l

/-- Fuel-indexed scan for `/\[\[([^\]]+)\]\]/g`. -/
def wikiLinksF : Nat → List Char → List String
  | 0, _ => []
  | _, [] => []
  | fuel + 1, c :: cs =>
    if c = '[' && ['['].isPrefixOf cs then
      let rest := cs.drop 1
      let run := rest.takeWhile (fun d => !(d = ']'))
      if !run.isEmpty && [']', ']'].isPrefixOf (rest.drop run.length) then
        run.asString :: wikiLinksF fuel (rest.drop (run.length + 2))
      else wikiLinksF fuel cs
    else wikiLinksF fuel cs

/-- All captures of `/\[\[([^\]]+)\]\]/g` in scan order.  On a failed match
attempt the scan advances one position, as the regex engine does. -/
def wikiLinks (l : List Char) : List String :=
  wikiLinksF l.length l

/-- `extractTags`: front-matter tags, then inline `#`-runs, then wiki-link
targets containing neither `.` nor `/`, with set semantics. -/
def extractTags (content : String) (fm : List (String × JVal)) : List String :=
  let t1 := (fmTagList fm).foldl addTag []
  let t2 := (inlineTags content.data).foldl addTag t1
  ((wikiLinks content.data).filter fun s =>
      !(s.data.contains '.') && !(s.data.contains '/')).foldl addTag t2

/-! ## Vault registry (constructor, `loadExternalVaults`, `getAllVaults`) -/

/-- The always-present primary vault (source lines 65–70). -/
def ghostVault (ghostVaultPath : String) : VaultConfig :=
  ⟨"Ghost AI Vault", ghostVaultPath, true, .ghost⟩

/-- The process environment after `dotenv.config`. -/
def EnvMap := String → Option String

/-- JavaScript truthiness of an optional environment string: defined and
non-empty. -/
def envTruthy (v : Option String) : Bool :=
  match v with
  | some s => !(s = "")
  | none => false

/-- One `VAULT_i_*` triple (source lines 43–56): pushed only when the name
and path variables are truthy and the enabled variable is exactly `true`. -/
def vaultAt (env : EnvMap) (i : Nat) : Option VaultConfig :=
  if envTruthy (env ("VAULT_" ++ toString i ++ "_NAME")) &&
      envTruthy (env ("VAULT_" ++ toString i ++ "_PATH")) &&
      (env ("VAULT_" ++ toString i ++ "_ENABLED") == some "true") then
    some ⟨(env ("VAULT_" ++ toString i ++ "_NAME")).getD "",
      (env ("VAULT_" ++ toString i ++ "_PATH")).getD "", true, .external⟩
  else none

/-- `loadExternalVaults` (source lines 35–59): scan indices 1 to 10. -/
def loadExternalVaults (env : EnvMap) : List VaultConfig :=
  ((List.range 10).map (· + 1)).filterMap (vaultAt env)

structure MultiVaultManager where
  ghostVaultPath : String
  externalVaults : List VaultConfig
deriving DecidableEq, Repr

/-- The class constructor (source lines 27–30). -/
def mkManager (ghostVaultPath : String) (env : EnvMap) : MultiVaultManager :=
  ⟨ghostVaultPath, loadExternalVaults env⟩

/-- `getAllVaults` (source lines 64–73). -/
def getAllVaults (m : MultiVaultManager) : List VaultConfig :=
  ghostVault m.ghostVaultPath :: m.externalVaults

/-- `getExternalVaults` (source lines 78–80). -/
def getExternalVaults (m : MultiVaultManager) : List VaultConfig :=
  m.externalVaults.filter (·.enabled)

/-! ## Filesystem model -/

mutual

/-- A directory tree: files carry content and stat data; a directory carries
a readability flag (`false` models a throwing `readdir`).  The entry list is
a mutual inductive so that traversals are structurally recursive. -/
inductive FSTree where
  | file (name : String) (content : String) (mtime : Nat) (size : Nat) : FSTree
  | dir (name : String) (readable : Bool) (entries : FSList) : FSTree

/-- A list of directory entries. -/
inductive FSList where
  | nil : FSList
  | cons (t : FSTree) (ts : FSList) : FSList

end

/-- The entries of an `FSList` as an ordinary list. -/
def FSList.toList : FSList → List FSTree
  | .nil => []
  | .cons t ts => t :: ts.toList

/-- Build an `FSList` from an ordinary list. -/
def FSList.ofList : List FSTree → FSList
  | [] => .nil
  | t :: ts => .cons t (FSList.ofList ts)

structure FS where
  /-- `access`/`readdir` view: the tree rooted at a vault path, `none` when
  `access` fails. -/
  root : String → Option FSTree
  /-- `readFile` and `stat` view: content, mtime and size by full path,
  `none` when reading fails. -/
  fileData : String → Option (String × Nat × Nat)

/-- Node `path.join` on already-normalized segments. -/
def pjoin (dir name : String) : String := dir ++ "/" ++ name

/-- `console.warn`/`console.error` events, abstracted by call site. -/
inductive LogMsg where
  | errorDir (dir : String) : LogMsg
  | errorParseNote (file : String) : LogMsg
  | warnVaultInaccessible (vault : String) : LogMsg
deriving DecidableEq, Repr

/-- `validateVault` (source lines 85–92): does `access` succeed. -/
def validateVault (fs : FS) (v : VaultConfig) : Bool :=
  (fs.root v.path).isSome

/-! ## Collection scanner (`getMarkdownFiles`, source lines 137–162) -/

mutual

/-- One readdir entry of the `getMarkdownFiles` loop (source lines 143–156):
a file is collected when its name ends in `.md`; a directory is skipped when
named `.obsidian` or `.git` and otherwise recursed into, an unreadable one
contributing only a logged error. -/
def walkEntry (dirPath : String) : FSTree → List String × List LogMsg
  | .file name _ _ _ =>
    (if strEndsWith name ".md" then [pjoin dirPath name] else [], [])
  | .dir name readable es =>
    if name = ".obsidian" || name = ".git" then ([], [])
    else if readable then walkEntries (pjoin dirPath name) es
    else ([], [LogMsg.errorDir (pjoin dirPath name)])

/-- The full entry loop: contributions of the entries, in readdir order. -/
def walkEntries (dirPath : String) : FSList → List String × List LogMsg
  | .nil => ([], [])
  | .cons t ts =>
    let s := walkEntry dirPath t
    let r := walkEntries dirPath ts
    (s.1 ++ r.1, s.2 ++ r.2)

end

/-- `getMarkdownFiles` (source lines 137–162) applied to the tree found at
`p` (a plain file or unreadable directory at the root makes `readdir`
throw, which is caught and logged). -/
def getMarkdownFiles (p : String) : FSTree → List String × List LogMsg
  | .file _ _ _ _ => ([], [LogMsg.errorDir p])
  | .dir _ readable es =>
    if readable then walkEntries p es else ([], [LogMsg.errorDir p])

/-! ## Note reading (`parseNoteFile`, `readVaultNotes`) -/

/-- `parseNoteFile` (source lines 167–196): `none` models the caught
read/stat failure. -/
def parseNoteFile (fs : FS) (v : VaultConfig) (filePath : String) :
    Option VaultNote × List LogMsg :=
  match fs.fileData filePath with
  | none => (none, [LogMsg.errorParseNote filePath])
  | some (content, mtime, size) =>
    let relativePath := (dropLeadSlash (removeFirst filePath.data v.path.data)).asString
    let title := extractTitle content relativePath
    let fm := extractFrontmatter content
    let tags := extractTags content fm
    (some ⟨v.name, relativePath, title, content, tags, fm, mtime, size⟩, [])

/-- `readVaultNotes` (source lines 111–132): scan, then parse each file,
skipping parse failures. -/
def readVaultNotes (fs : FS) (v : VaultConfig) : List VaultNote × List LogMsg :=
  let fl :=
    match fs.root v.path with
    | none => ([], [LogMsg.errorDir v.path])
    | some t => getMarkdownFiles v.path t
  fl.1.foldl
    (fun acc file =>
      let pr := parseNoteFile fs v file
      (acc.1 ++ pr.1.toList, acc.2 ++ pr.2))
    ([], fl.2)

/-! ## Cross-vault search (`searchAllVaults`, source lines 283–337) -/

structure SearchOptions where
  includeContent : Bool := false
  tags : Option (List String) := none
  vaults : Option (List String) := none
  limit : Option Int := none

/-- Candidate vaults (source lines 289–291).  A *supplied empty array* is
truthy in JavaScript and therefore selects the filter branch. -/
def vaultsToSearch (opts : SearchOptions) (all : List VaultConfig) : List VaultConfig :=
  match opts.vaults with
  | some vs => all.filter fun v => vs.contains v.name
  | none => all

/-- The scan-and-skip loop of `searchAllVaults` (source lines 293–303):
inaccessible vaults are skipped with a warning. -/
def collectNotes (fs : FS) : List VaultConfig → List VaultNote × List LogMsg
  | [] => ([], [])
  | v :: rest =>
    let r := collectNotes fs rest
    if validateVault fs v then
      let n := readVaultNotes fs v
      (n.1 ++ r.1, n.2 ++ r.2)
    else
      (r.1, LogMsg.warnVaultInaccessible v.name :: r.2)

/-- Tag filtering (source lines 309–317): case-insensitive substring match,
OR across filter terms and across note tags. -/
def tagFilter (opts : SearchOptions) (notes : List VaultNote) : List VaultNote :=
  match opts.tags with
  | some ts =>
    if ts.length > 0 then
      notes.filter fun note =>
        ts.any fun tag =>
          note.tags.any fun noteTag =>
            containsSub (lowerList noteTag.data) (lowerList tag.data)
    else notes
  | none => notes

/-- Title/content filtering (source lines 320–326). -/
def textFilter (query : String) (opts : SearchOptions) (notes : List VaultNote) :
    List VaultNote :=
  if query = "" then notes
  else
    let searchLower := lowerList query.data
    notes.filter fun note =>
      containsSub (lowerList note.title.data) searchLower ||
        (opts.includeContent && containsSub (lowerList note.content.data) searchLower)

/-- Stable insertion of a note into a descending-sorted list: the inserted
note comes from an earlier position, so it is placed before any note with an
equal `lastModified`. -/
def insertNoteDesc (x : VaultNote) : List VaultNote → List VaultNote
  | [] => [x]
  | y :: ys =>
    if x.lastModified < y.lastModified then y :: insertNoteDesc x ys
    else x :: y :: ys

/-- Descending sort by `lastModified` (source line 329).  The source sorts
with the comparator on `getTime()` under the stable `Array.prototype.sort`
of modern engines; any stable descending sort produces that unique output,
modelled here by stable insertion sort. -/
def sortNotes : List VaultNote → List VaultNote
  | [] => []
  | x :: xs => insertNoteDesc x (sortNotes xs)

/-- `slice(0, limit)` guarded by `if (options.limit)` (source lines
332–334): `0` is falsy and disables truncation; a negative limit counts
from the end, as `slice` does. -/
def applyLimit (limit : Option Int) (notes : List VaultNote) : List VaultNote :=
  match limit with
  | some l =>
    if l = 0 then notes
    else if l < 0 then notes.take (notes.length - l.natAbs)
    else notes.take l.toNat
  | none => notes

/-- `searchAllVaults`. -/
def searchAllVaults (fs : FS) (m : MultiVaultManager) (query : String)
    (opts : SearchOptions) : List VaultNote × List LogMsg :=
  let cn := collectNotes fs (vaultsToSearch opts (getAllVaults m))
  (applyLimit opts.limit (sortNotes (textFilter query opts (tagFilter opts cn.1))), cn.2)

/-! ## Vault statistics and cross-vault index (source lines 342–408) -/

/-- `getVaultStats` loop (source lines 345–357): inaccessible vaults are
skipped silently; the record is keyed by vault name, later duplicates
overwriting earlier ones. -/
def statsLoop (fs : FS) (acc : List (String × Nat × Nat) × List LogMsg) :
    List VaultConfig → List (String × Nat × Nat) × List LogMsg
  | [] => acc
  | v :: rest =>
    if validateVault fs v then
      let n := readVaultNotes fs v
      let totalSize := n.1.foldl (fun sum note => sum + note.size) 0
      statsLoop fs (setKey acc.1 v.name (n.1.length, totalSize), acc.2 ++ n.2) rest
    else statsLoop fs acc rest

def getVaultStats (fs : FS) (m : MultiVaultManager) :
    List (String × Nat × Nat) × List LogMsg :=
  statsLoop fs ([], []) (getAllVaults m)

structure TopicEntry where
  count : Nat
  vaults : List String
deriving DecidableEq, Repr

/-- One tag occurrence added to the topic index (source lines 383–391):
create the entry on first sight, increment its count, record the vault name
once. -/
def topicStep (vaultName : String) (idx : List (String × TopicEntry)) (tag : String) :
    List (String × TopicEntry) :=
  let cur := (getKey idx tag).getD ⟨0, []⟩
  let withVault :=
    if cur.vaults.contains vaultName then cur.vaults else cur.vaults ++ [vaultName]
  setKey idx tag ⟨cur.count + 1, withVault⟩

/-- The per-vault loop of `generateCrossVaultIndex` (source lines 373–393):
accumulates all notes and the topic index, silently skipping inaccessible
vaults. -/
def indexLoop (fs : FS)
    (acc : List VaultNote × List (String × TopicEntry) × List LogMsg) :
    List VaultConfig → List VaultNote × List (String × TopicEntry) × List LogMsg
  | [] => acc
  | v :: rest =>
    if validateVault fs v then
      let n := readVaultNotes fs v
      let idx := n.1.foldl (fun ix note => note.tags.foldl (topicStep v.name) ix) acc.2.1
      indexLoop fs (acc.1 ++ n.1, idx, acc.2.2 ++ n.2) rest
    else indexLoop fs acc rest

structure CrossIndex where
  topics : List (String × TopicEntry)
  recentNotes : List VaultNote
  vaultStats : List (String × Nat × Nat)

/-- `generateCrossVaultIndex` (source lines 365–408). -/
def generateCrossVaultIndex (fs : FS) (m : MultiVaultManager) :
    CrossIndex × List LogMsg :=
  let il := indexLoop fs ([], [], []) (getAllVaults m)
  let recent := (sortNotes il.1).take 20
  let vs := getVaultStats fs m
  (⟨il.2.1, recent, vs.1⟩, il.2.2 ++ vs.2)

/-! ## Derived notions used by the verification statements -/

/-- The notes gathered from the reachable vaults of a candidate list, in
order: the filter-then-concatenate reading of the scan-and-skip loops. -/
def gatherNotes (fs : FS) (vs : List VaultConfig) : List VaultNote :=
  (vs.filter (validateVault fs)).flatMap fun v => (readVaultNotes fs v).1

/-- The topic index as a left fold over an already-gathered note list,
attributing each note to its own `vault` field. -/
def buildTopics (idx0 : List (String × TopicEntry)) (notes : List VaultNote) :
    List (String × TopicEntry) :=
  notes.foldl (fun ix note => note.tags.foldl (topicStep note.vault) ix) idx0

/-- A line: a character list free of ECMAScript line terminators. -/
def noTerm (l : List Char) : Bool := !(l.any jsLineTerm)

/-- A proper level-1 heading line: `#`, at least one whitespace character,
then some non-whitespace text, all within the line. -/
def properH1 (l : List Char) : Bool :=
  match l with
  | '#' :: r =>
    (match r with
     | c :: _ => jsWs c
     | [] => false) && !(r.dropWhile jsWs).isEmpty
  | _ => false

/-- A line consisting of `#` followed by whitespace only (possibly none):
the lines on which the multiline `\s+` of the H1 regex can leak onto a
following line. -/
def hashBlank (l : List Char) : Bool :=
  match l with
  | '#' :: r =>
    (match r with
     | c :: _ => jsWs c
     | [] => true) && (r.dropWhile jsWs).isEmpty
  | _ => false

/-- Join lines with newline separators (inverse of splitting on `\n`). -/
def joinLines : List (List Char) → List Char
  | [] => []
  | [l] => l
  | l :: ls => l ++ '\n' :: joinLines ls

/-- The name of a tree node. -/
def nameOf : FSTree → String
  | .file n _ _ _ => n
  | .dir n _ _ => n

/-- A well-formed filesystem name: non-empty and without a separator. -/
def okName (n : String) : Bool := !(n = "") && !(n.data.contains '/')

mutual

/-- Well-formedness of a tree: names are well-formed and sibling names are
pairwise distinct (as on a real filesystem). -/
def wfTree : FSTree → Bool
  | .file n _ _ _ => okName n
  | .dir n _ es => okName n && wfFSList es

def wfFSList : FSList → Bool
  | .nil => true
  | .cons t ts =>
    wfTree t && !((ts.toList.map nameOf).contains (nameOf t)) && wfFSList ts

end

/-- The scanner's contract, as a reachability predicate: a path is listed
iff it denotes a `.md` file reached from the entry list through readable
directories none of which is named `.obsidian` or `.git`. -/
inductive ScanReach : String → FSList → String → Prop where
  | here {p : String} {es : FSList} {name content : String} {mtime size : Nat} :
      FSTree.file name content mtime size ∈ es.toList → strEndsWith name ".md" = true →
      ScanReach p es (pjoin p name)
  | sub {p : String} {es : FSList} {name : String} {es2 : FSList} {q : String} :
      FSTree.dir name true es2 ∈ es.toList → name ≠ ".obsidian" → name ≠ ".git" →
      ScanReach (pjoin p name) es2 q →
      ScanReach p es q

/-- One directory entry's contribution to the scan, as a predicate. -/
inductive EntryReach : String → FSTree → String → Prop where
  | file {p : String} {name content : String} {mtime size : Nat} :
      strEndsWith name ".md" = true →
      EntryReach p (.file name content mtime size) (pjoin p name)
  | dir {p name : String} {es2 : FSList} {q : String} :
      name ≠ ".obsidian" → name ≠ ".git" → ScanReach (pjoin p name) es2 q →
      EntryReach p (.dir name true es2) q

/-! ## Concrete fixtures used by counterexamples and witnesses -/

/-- An environment with no vault variables. -/
def envEmpty : EnvMap := fun _ => none

/-- An environment configuring one external vault that is explicitly
disabled. -/
def envDisabled : EnvMap := fun s =>
  if s = "VAULT_1_NAME" then some "Work"
  else if s = "VAULT_1_PATH" then some "/w"
  else if s = "VAULT_1_ENABLED" then some "false"
  else none

/-- An environment configuring the two enabled external vaults `A` and `B`
of the index scenario. -/
def envAB : EnvMap := fun s =>
  if s = "VAULT_1_NAME" then some "A"
  else if s = "VAULT_1_PATH" then some "/a"
  else if s = "VAULT_1_ENABLED" then some "true"
  else if s = "VAULT_2_NAME" then some "B"
  else if s = "VAULT_2_PATH" then some "/b"
  else if s = "VAULT_2_ENABLED" then some "true"
  else none

/-- Scenario filesystem: vault `A` holds one note tagged `work` modified at
time 1, vault `B` one note tagged `personal` modified at time 2; the ghost
vault path is unreachable. -/
def fsAB : FS where
  root := fun p =>
    if p = "/a" then some (.dir "a" true (.cons (.file "w.md" "#work" 1 5) .nil))
    else if p = "/b" then
      some (.dir "b" true (.cons (.file "p.md" "#personal" 2 9) .nil))
    else none
  fileData := fun p =>
    if p = "/a/w.md" then some ("#work", 1, 5)
    else if p = "/b/p.md" then some ("#personal", 2, 9)
    else none

def mAB : MultiVaultManager := mkManager "/ghost" envAB

/-- A filesystem on which nothing is reachable. -/
def fsNone : FS where
  root := fun _ => none
  fileData := fun _ => none

def mGhostOnly : MultiVaultManager := mkManager "/ghost" envEmpty

/-- The tag-and-title scenario document of the specification. -/
def c1doc : String := "---\ntags: [\"x\", \"y\"]\n---\n# Hello\nBody #z text"

/-- Round-trip document with front-matter tags and no inline tags. -/
def c5front : String := "---\ntags: [\"a\",\"b\"]\n---\nplain body text"

/-- Round-trip document with inline tags only. -/
def c5inline : String := "#a #b"

/-- A scanner fixture: a matching file, an excluded `.git` directory, a
readable subdirectory, an unreadable directory, and a non-note file. -/
def esScan : FSList :=
  .ofList
    [.file "a.md" "A" 1 1,
     .dir ".git" true (.ofList [.file "hidden.md" "H" 1 1]),
     .dir "sub" true (.ofList [.file "b.md" "B" 2 2]),
     .dir "bad" false (.ofList [.file "c.md" "C" 3 3]),
     .file "notes.txt" "T" 4 4]

/-! ## Helper lemmas -/

/-- Every vault produced by `vaultAt` carries `enabled = true`. -/
theorem vaultAt_enabled {env : EnvMap} {i : Nat} {v : VaultConfig}
    (h : vaultAt env i = some v) : v.enabled = true := by
  unfold vaultAt at h
  split at h
  · cases h; rfl
  · cases h

/-- Every externally loaded vault carries `enabled = true`. -/
theorem loadExternalVaults_enabled {env : EnvMap} {v : VaultConfig}
    (h : v ∈ loadExternalVaults env) : v.enabled = true := by
  obtain ⟨i, _, hi⟩ := List.mem_filterMap.mp h
  exact vaultAt_enabled hi

theorem tagFilter_nil (opts : SearchOptions) : tagFilter opts [] = [] := by
  unfold tagFilter
  split
  · split <;> rfl
  · rfl

theorem textFilter_nil (q : String) (opts : SearchOptions) :
    textFilter q opts [] = [] := by
  unfold textFilter
  split <;> rfl

theorem applyLimit_nil (lim : Option Int) : applyLimit lim [] = [] := by
  unfold applyLimit
  split
  · split
    · rfl
    · split <;> simp
  · rfl

/-! ## Claims -/

/-- C1 (counterexample): on the specification's scenario document the code
does **not** produce the tag set `x, y, z`: the inline-tag character class
contains `\s`, so the heading/body run and the trailing `text` become part
of the captured tags. -/
theorem C1_scenario_counterexample :
    (extractTags c1doc (extractFrontmatter c1doc)).toFinset ≠
      ({"x", "y", "z"} : Finset String) := by decide

/-- C1 (amended): the scenario document produces exactly the tags `x`, `y`,
`Hello\nBody` and `z text` (in insertion order), and the title `Hello`. -/
theorem C1_scenario :
    extractTags c1doc (extractFrontmatter c1doc) = ["x", "y", "Hello\nBody", "z text"] ∧
    extractTitle c1doc "note.md" = "Hello" :=
  ⟨rfl, rfl⟩

/-- C5: a document with front-matter `tags: ["a","b"]` and no inline tags
or wiki-links yields the tag set `a, b`, and a document with only the
inline tags `#a #b` yields the same set (the trailing space of the first
capture is trimmed away). -/
theorem C5_roundtrip :
    extractTags c5front (extractFrontmatter c5front) = ["a", "b"] ∧
    extractTags c5inline (extractFrontmatter c5inline) = ["a", "b"] :=
  ⟨rfl, rfl⟩

/-- C2 (counterexample): an externally configured collection whose enabled
variable is `false` is *not* retained in the full list: `getAllVaults`
returns only the primary collection. -/
theorem C2_disabled_counterexample :
    envDisabled "VAULT_1_NAME" = some "Work" ∧
    envDisabled "VAULT_1_PATH" = some "/w" ∧
    envDisabled "VAULT_1_ENABLED" = some "false" ∧
    (getAllVaults (mkManager "/g" envDisabled)).map VaultConfig.name = ["Ghost AI Vault"] :=
  ⟨rfl, rfl, rfl, rfl⟩

/-- C2 (amended): the full list is the always-present primary collection
plus exactly the externally configured collections that are enabled (with
truthy name and path); disabled collections are never loaded, every listed
external collection has `enabled = true`, and hence the enabled-only view
coincides with the external list. -/
theorem C2_registry (env : EnvMap) (gp : String) :
    getAllVaults (mkManager gp env) = ghostVault gp :: loadExternalVaults env ∧
    (loadExternalVaults env).all (·.enabled) = true ∧
    getExternalVaults (mkManager gp env) = loadExternalVaults env := by
  refine ⟨rfl, ?_, ?_⟩
  · rw [List.all_eq_true]
    intro v hv
    exact loadExternalVaults_enabled hv
  · show (loadExternalVaults env).filter (·.enabled) = loadExternalVaults env
    rw [List.filter_eq_self]
    intro v hv
    exact loadExternalVaults_enabled hv

/-- C6: index generation is deterministic on a fixed corpus — the embedding
is a pure function of the filesystem and the (immutable) registry, exactly
as the source method only reads `this` and the disk, so two successive runs
yield identical topic tables and identical recent-document orderings. -/
theorem C6_deterministic (fs : FS) (m : MultiVaultManager) :
    (generateCrossVaultIndex fs m).1.topics = (generateCrossVaultIndex fs m).1.topics ∧
    (generateCrossVaultIndex fs m).1.recentNotes =
      (generateCrossVaultIndex fs m).1.recentNotes :=
  ⟨rfl, rfl⟩

/-- C10: a supplied result limit of `0` is falsy, so the search behaves
exactly as if no limit had been supplied (all surviving documents are
returned untruncated). -/
theorem C10_zero_limit (fs : FS) (m : MultiVaultManager) (q : String)
    (ic : Bool) (ts vs : Option (List String)) :
    searchAllVaults fs m q ⟨ic, ts, vs, some 0⟩ =
      searchAllVaults fs m q ⟨ic, ts, vs, none⟩ :=
  rfl

/-- C3 (counterexample): a *supplied but empty* collection filter is truthy
in JavaScript, so it selects the filter branch and yields *no* candidate
collections — not all registered ones as the claim states (the unfiltered
search over the same corpus returns two documents). -/
theorem C3_empty_filter_counterexample :
    vaultsToSearch ⟨false, none, some [], none⟩ (getAllVaults mAB) = [] ∧
    getAllVaults mAB ≠ [] ∧
    (searchAllVaults fsAB mAB "" ⟨false, none, some [], none⟩).1.length = 0 ∧
    (searchAllVaults fsAB mAB "" ⟨false, none, none, none⟩).1.length = 2 :=
  ⟨rfl, by decide, rfl, rfl⟩

/-- C3 (amended): candidates are all registered collections when the
collection filter is *not supplied*; when supplied (even empty) they are
exactly the registered collections whose name is a member; a filter naming
no registered collection makes the search return the empty sequence, with
no error. -/
theorem C3_candidates (fs : FS) (m : MultiVaultManager) (q : String)
    (opts : SearchOptions) :
    (opts.vaults = none → vaultsToSearch opts (getAllVaults m) = getAllVaults m) ∧
    (∀ vs, opts.vaults = some vs →
      vaultsToSearch opts (getAllVaults m) =
        (getAllVaults m).filter fun v => vs.contains v.name) ∧
    (∀ vs, opts.vaults = some vs →
      ((getAllVaults m).all fun v => !vs.contains v.name) = true →
      (searchAllVaults fs m q opts).1 = []) := by
  refine ⟨?_, ?_, ?_⟩
  · intro h
    unfold vaultsToSearch
    rw [h]
  · intro vs h
    unfold vaultsToSearch
    rw [h]
  · intro vs h hall
    have hv : vaultsToSearch opts (getAllVaults m) = [] := by
      unfold vaultsToSearch
      rw [h, List.filter_eq_nil_iff]
      intro v hvmem
      have hb := List.all_eq_true.mp hall v hvmem
      simpa using hb
    show applyLimit opts.limit (sortNotes (textFilter q opts (tagFilter opts
      (collectNotes fs (vaultsToSearch opts (getAllVaults m))).1))) = []
    rw [hv]
    show applyLimit opts.limit (sortNotes (textFilter q opts (tagFilter opts []))) = []
    rw [tagFilter_nil, textFilter_nil]
    exact applyLimit_nil opts.limit

/-- C3 witness: a filter naming no registered collection yields the empty
result on the concrete two-vault corpus. -/
theorem C3_candidates_witness :
    (searchAllVaults fsAB mAB "" ⟨false, none, some ["Nonexistent"], none⟩).1 = [] :=
  (C3_candidates fsAB mAB "" ⟨false, none, some ["Nonexistent"], none⟩).2.2
    ["Nonexistent"] rfl (by decide)

/-- The note list collected by the search loop is the concatenation of the
notes of the reachable candidate vaults, in order. -/
theorem collectNotes_notes (fs : FS) (vs : List VaultConfig) :
    (collectNotes fs vs).1 = gatherNotes fs vs := by
  induction vs with
  | nil => rfl
  | cons v rest ih =>
    simp only [collectNotes, gatherNotes] at ih ⊢
    cases h : validateVault fs v <;>
      simp [h, List.filter_cons, ih]

/-- Every unreachable candidate vault contributes an inaccessibility
warning to the search loop's log. -/
theorem collectNotes_warn (fs : FS) {v : VaultConfig} {vs : List VaultConfig}
    (hmem : v ∈ vs) (hval : validateVault fs v = false) :
    LogMsg.warnVaultInaccessible v.name ∈ (collectNotes fs vs).2 := by
  induction vs with
  | nil => cases hmem
  | cons w rest ih =>
    simp only [collectNotes]
    rcases List.mem_cons.mp hmem with heq | hmem'
    · subst heq
      simp [hval]
    · cases h : validateVault fs w <;> simp [h]
      · exact Or.inr (ih hmem')
      · exact Or.inr (ih hmem')

/-- A successfully parsed note carries the owning vault's name. -/
theorem parseNoteFile_vault {fs : FS} {v : VaultConfig} {f : String} {n : VaultNote}
    (h : (parseNoteFile fs v f).1 = some n) : n.vault = v.name := by
  unfold parseNoteFile at h
  cases hd : fs.fileData f with
  | none => rw [hd] at h; cases h
  | some d =>
    obtain ⟨content, mtime, size⟩ := d
    rw [hd] at h
    simp only at h
    cases h
    rfl

/-- The note-accumulating fold of `readVaultNotes` preserves the
vault-name property. -/
theorem notesFold_vault (fs : FS) (v : VaultConfig) (files : List String) :
    ∀ (acc : List VaultNote × List LogMsg), (∀ n ∈ acc.1, n.vault = v.name) →
      ∀ n ∈ (files.foldl (fun acc file =>
          ((acc.1 ++ (parseNoteFile fs v file).1.toList,
            acc.2 ++ (parseNoteFile fs v file).2) : List VaultNote × List LogMsg))
        acc).1, n.vault = v.name := by
  induction files with
  | nil => intro acc hacc n hn; exact hacc n hn
  | cons f rest ih =>
    intro acc hacc
    rw [List.foldl_cons]
    apply ih
    intro n hn
    rcases List.mem_append.mp hn with h1 | h2
    · exact hacc n h1
    · have : (parseNoteFile fs v f).1 = some n := by
        rcases Option.mem_toList.mp h2 with h3
        exact h3
      exact parseNoteFile_vault this

/-- All notes read from a vault carry that vault's name. -/
theorem readVaultNotes_vault (fs : FS) (v : VaultConfig) :
    ∀ n ∈ (readVaultNotes fs v).1, n.vault = v.name := by
  unfold readVaultNotes
  exact notesFold_vault fs v _ _ (fun n hn => absurd hn (List.not_mem_nil n))

/-- The index loop accumulates exactly the notes of the reachable vaults. -/
theorem indexLoop_notes (fs : FS) (vs : List VaultConfig) :
    ∀ acc : List VaultNote × List (String × TopicEntry) × List LogMsg,
      (indexLoop fs acc vs).1 = acc.1 ++ gatherNotes fs vs := by
  induction vs with
  | nil => intro acc; simp [indexLoop, gatherNotes]
  | cons v rest ih =>
    intro acc
    simp only [indexLoop]
    by_cases h : validateVault fs v = true
    · rw [if_pos h, ih]
      simp [gatherNotes, List.filter_cons, h, List.append_assoc]
    · rw [if_neg h, ih]
      simp [gatherNotes, List.filter_cons, h]

/-- Folding the topic updates with the loop's vault name equals folding
with each note's own vault field, for notes of that vault. -/
theorem tagsFold_vault (name : String) (notes : List VaultNote)
    (h : ∀ n ∈ notes, n.vault = name) :
    ∀ idx, notes.foldl (fun ix note => note.tags.foldl (topicStep name) ix) idx =
      buildTopics idx notes := by
  induction notes with
  | nil => intro idx; rfl
  | cons n rest ih =>
    intro idx
    simp only [buildTopics, List.foldl_cons]
    have hn : n.vault = name := h n (List.mem_cons_self n rest)
    rw [ih (fun x hx => h x (List.mem_cons_of_mem _ hx))]
    simp only [buildTopics]
    congr 1
    rw [hn]

/-- The topic index built by the loop is the fold over the gathered notes,
each note attributed to its own vault. -/
theorem indexLoop_topics (fs : FS) (vs : List VaultConfig) :
    ∀ acc, (indexLoop fs acc vs).2.1 = buildTopics acc.2.1 (gatherNotes fs vs) := by
  induction vs with
  | nil => intro acc; simp [indexLoop, gatherNotes, buildTopics]
  | cons v rest ih =>
    intro acc
    simp only [indexLoop]
    by_cases h : validateVault fs v = true
    · rw [if_pos h, ih]
      rw [tagsFold_vault v.name (readVaultNotes fs v).1 (readVaultNotes_vault fs v)]
      simp [gatherNotes, List.filter_cons, h, buildTopics, List.foldl_append]
    · rw [if_neg h, ih]
      simp [gatherNotes, List.filter_cons, h]

/-- Stable insertion produces a permutation of consing. -/
theorem insertNoteDesc_perm (x : VaultNote) (l : List VaultNote) :
    (insertNoteDesc x l).Perm (x :: l) := by
  induction l with
  | nil => exact List.Perm.refl _
  | cons y ys ih =>
    simp only [insertNoteDesc]
    split
    · exact (ih.cons y).trans (List.Perm.swap x y ys)
    · exact List.Perm.refl _

/-- Stable insertion preserves descending sortedness. -/
theorem insertNoteDesc_sorted (x : VaultNote) (l : List VaultNote)
    (h : List.Pairwise (fun a b => b.lastModified ≤ a.lastModified) l) :
    List.Pairwise (fun a b => b.lastModified ≤ a.lastModified) (insertNoteDesc x l) := by
  induction l with
  | nil => simp [insertNoteDesc]
  | cons y ys ih =>
    rcases List.pairwise_cons.mp h with ⟨hy, hys⟩
    simp only [insertNoteDesc]
    split
    · rename_i hlt
      refine List.pairwise_cons.mpr ⟨?_, ih hys⟩
      intro b hb
      rcases List.mem_cons.mp ((insertNoteDesc_perm x ys).mem_iff.mp hb) with rfl | hb'
      · omega
      · exact hy b hb'
    · rename_i hnlt
      refine List.pairwise_cons.mpr ⟨?_, h⟩
      intro b hb
      rcases List.mem_cons.mp hb with rfl | hb'
      · omega
      · exact le_trans (hy b hb') (by omega)

/-- The sort is a permutation of its input. -/
theorem sortNotes_perm (l : List VaultNote) : (sortNotes l).Perm l := by
  induction l with
  | nil => exact List.Perm.refl _
  | cons x xs ih => exact (insertNoteDesc_perm x (sortNotes xs)).trans (ih.cons x)

/-- The sort is descending in `lastModified`. -/
theorem sortNotes_sorted (l : List VaultNote) :
    List.Pairwise (fun a b => b.lastModified ≤ a.lastModified) (sortNotes l) := by
  induction l with
  | nil => simp [sortNotes]
  | cons x xs ih => exact insertNoteDesc_sorted x (sortNotes xs) ih

/-- C4 (counterexample): with the only registered collection unreachable,
index building emits *no* warning at all (its log is empty), contradicting
the claim that both operations warn. -/
theorem C4_index_no_warning_counterexample :
    validateVault fsNone (ghostVault "/ghost") = false ∧
    ghostVault "/ghost" ∈ getAllVaults mGhostOnly ∧
    (generateCrossVaultIndex fsNone mGhostOnly).2 = [] :=
  ⟨rfl, by decide, rfl⟩

/-- C4 (amended): for both the search and the index operation, unreachable
collections contribute no documents while the remaining collections are
still processed — the outputs are exactly those computed from the reachable
candidates — and both operations are total; the search operation logs a
warning for every skipped collection, whereas index building skips
silently. -/
theorem C4_unreachable (fs : FS) (m : MultiVaultManager) (q : String)
    (opts : SearchOptions) :
    (searchAllVaults fs m q opts).1 =
      applyLimit opts.limit (sortNotes (textFilter q opts (tagFilter opts
        (gatherNotes fs (vaultsToSearch opts (getAllVaults m)))))) ∧
    (∀ v ∈ vaultsToSearch opts (getAllVaults m), validateVault fs v = false →
      LogMsg.warnVaultInaccessible v.name ∈ (searchAllVaults fs m q opts).2) ∧
    (generateCrossVaultIndex fs m).1.recentNotes =
      (sortNotes (gatherNotes fs (getAllVaults m))).take 20 ∧
    (generateCrossVaultIndex fs m).1.topics =
      buildTopics [] (gatherNotes fs (getAllVaults m)) := by
  refine ⟨?_, ?_, ?_, ?_⟩
  · show applyLimit opts.limit (sortNotes (textFilter q opts (tagFilter opts
      (collectNotes fs (vaultsToSearch opts (getAllVaults m))).1))) = _
    rw [collectNotes_notes]
  · intro v hv hval
    exact collectNotes_warn fs hv hval
  · show (sortNotes (indexLoop fs ([], [], []) (getAllVaults m)).1).take 20 = _
    rw [indexLoop_notes]
    rfl
  · show (indexLoop fs ([], [], []) (getAllVaults m)).2.1 = _
    rw [indexLoop_topics]

/-- C4 witness: on the two-vault corpus with an unreachable primary vault,
the search logs the inaccessibility warning for the primary vault. -/
theorem C4_unreachable_witness :
    LogMsg.warnVaultInaccessible (ghostVault "/ghost").name ∈
      (searchAllVaults fsAB mAB "" ⟨false, none, none, none⟩).2 :=
  (C4_unreachable fsAB mAB "" ⟨false, none, none, none⟩).2.1
    (ghostVault "/ghost") (by decide) (by decide)

/-- C7: on the two-collection scenario, `B`'s document (modified today)
precedes `A`'s (modified yesterday) in `recentDocuments`, and the topic
table maps `work` to count 1 from `A` and `personal` to count 1 from `B`;
in general the recent list is descending in `lastModifiedTime`, holds at
most 20 entries, and is an initial fragment of a permutation of exactly the
scanned documents. -/
theorem C7_recent_and_topics :
    ((generateCrossVaultIndex fsAB mAB).1.recentNotes.map fun n => (n.vault, n.path)) =
      [("B", "p.md"), ("A", "w.md")] ∧
    getKey (generateCrossVaultIndex fsAB mAB).1.topics "work" = some ⟨1, ["A"]⟩ ∧
    getKey (generateCrossVaultIndex fsAB mAB).1.topics "personal" = some ⟨1, ["B"]⟩ ∧
    ∀ (fs : FS) (m : MultiVaultManager),
      List.Pairwise (fun a b => b.lastModified ≤ a.lastModified)
        (generateCrossVaultIndex fs m).1.recentNotes ∧
      (generateCrossVaultIndex fs m).1.recentNotes.length ≤ 20 ∧
      ∃ rest, ((generateCrossVaultIndex fs m).1.recentNotes ++ rest).Perm
        (gatherNotes fs (getAllVaults m)) := by
  refine ⟨rfl, rfl, rfl, ?_⟩
  intro fs m
  have hnotes : (indexLoop fs ([], [], []) (getAllVaults m)).1 =
      gatherNotes fs (getAllVaults m) := by
    rw [indexLoop_notes]; rfl
  refine ⟨?_, ?_, ?_⟩
  · show List.Pairwise _ ((sortNotes (indexLoop fs ([], [], []) (getAllVaults m)).1).take 20)
    exact List.Pairwise.sublist (List.take_sublist 20 _) (sortNotes_sorted _)
  · show ((sortNotes (indexLoop fs ([], [], []) (getAllVaults m)).1).take 20).length ≤ 20
    rw [List.length_take]
    omega
  · refine ⟨(sortNotes (indexLoop fs ([], [], []) (getAllVaults m)).1).drop 20, ?_⟩
    show ((sortNotes (indexLoop fs ([], [], []) (getAllVaults m)).1).take 20 ++ _).Perm _
    rw [List.take_append_drop]
    rw [← hnotes]
    exact sortNotes_perm _

/-- `noTerm` unpacked. -/
theorem noTerm_spec {l : List Char} (h : noTerm l = true) :
    ∀ c ∈ l, jsLineTerm c = false := by
  intro c hc
  simp only [noTerm, Bool.not_eq_true'] at h
  cases hj : jsLineTerm c
  · rfl
  · have h2 : l.any jsLineTerm = true := List.any_eq_true.mpr ⟨c, hc, hj⟩
    rw [h] at h2
    exact absurd h2 (by decide)

/-- `takeWhile` passes over a block that satisfies the predicate. -/
theorem takeWhile_append_of_all {p : Char → Bool} (w r : List Char)
    (h : ∀ c ∈ w, p c = true) : (w ++ r).takeWhile p = w ++ r.takeWhile p := by
  induction w with
  | nil => rfl
  | cons c w' ih =>
    have hc := h c (List.mem_cons_self c w')
    simp only [List.cons_append, List.takeWhile_cons, hc, if_true]
    rw [ih (fun d hd => h d (List.mem_cons_of_mem _ hd))]

/-- `dropWhile` is idempotent. -/
theorem dropWhile_idem (p : Char → Bool) (l : List Char) :
    (l.dropWhile p).dropWhile p = l.dropWhile p := by
  induction l with
  | nil => rfl
  | cons c cs ih =>
    by_cases hc : p c = true <;> simp [List.dropWhile_cons, hc, ih]

/-- The head of a `dropWhile` residue falsifies the predicate. -/
theorem head_dropWhile_false (p : Char → Bool) (l : List Char) {c : Char}
    (h : (l.dropWhile p).head? = some c) : p c = false := by
  induction l with
  | nil => cases h
  | cons d l' ih =>
    by_cases hd : p d = true
    · rw [List.dropWhile_cons, if_pos hd] at h
      exact ih h
    · rw [List.dropWhile_cons, if_neg hd] at h
      cases h
      exact Bool.not_eq_true _ ▸ Bool.of_not_eq_true hd

/-- Trimming is unaffected by first dropping leading whitespace. -/
theorem jsTrim_dropWhile (l : List Char) : jsTrim (l.dropWhile jsWs) = jsTrim l := by
  unfold jsTrim
  rw [dropWhile_idem]

/-- Scanning with `atStart = false` skips a whole terminator-free line. -/
theorem findH1_false_append (l : List Char) (rest : List Char)
    (h : ∀ c ∈ l, jsLineTerm c = false) :
    findH1 (l ++ '\n' :: rest) false = findH1 rest true := by
  induction l with
  | nil => rfl
  | cons c l' ih =>
    have hc := h c (List.mem_cons_self c l')
    show findH1 (l' ++ '\n' :: rest) (jsLineTerm c) = findH1 rest true
    rw [hc]
    exact ih (fun d hd => h d (List.mem_cons_of_mem _ hd))

/-- Scanning the last line with `atStart = false` finds nothing. -/
theorem findH1_false_none (l : List Char) (h : ∀ c ∈ l, jsLineTerm c = false) :
    findH1 l false = none := by
  induction l with
  | nil => rfl
  | cons c l' ih =>
    show findH1 l' (jsLineTerm c) = none
    rw [h c (List.mem_cons_self c l')]
    exact ih (fun d hd => h d (List.mem_cons_of_mem _ hd))

/-- When no whitespace follows, the H1 tail match fails. -/
theorem tryH1_no_ws {rest : List Char} (h : rest.takeWhile jsWs = []) :
    tryH1 rest = none := by
  unfold tryH1
  rw [h]
  rfl

/-- The H1 tail match on whitespace followed by line text captures exactly
the text up to the end of the line. -/
theorem tryH1_proper (w t tail : List Char)
    (hw : w ≠ []) (hwall : ∀ c ∈ w, jsWs c = true)
    (ht : t ≠ []) (htnl : ∀ c ∈ t, jsDotOk c = true)
    (hth : ∀ c, t.head? = some c → jsWs c = false)
    (htail : tail = [] ∨ ∃ tl, tail = '\n' :: tl) :
    tryH1 (w ++ t ++ tail) = some t := by
  obtain ⟨c, t', rfl⟩ : ∃ c t', t = c :: t' := by
    cases t with
    | nil => exact absurd rfl ht
    | cons c t' => exact ⟨c, t', rfl⟩
  have hcw : jsWs c = false := hth c rfl
  have htw : (w ++ (c :: t') ++ tail).takeWhile jsWs = w := by
    rw [List.append_assoc, takeWhile_append_of_all w _ hwall]
    rw [List.cons_append, List.takeWhile_cons, hcw]
    simp
  have hlnl : ((c :: t') ++ tail).takeWhile jsDotOk = c :: t' := by
    rw [takeWhile_append_of_all (c :: t') tail htnl]
    rcases htail with rfl | ⟨tl, rfl⟩
    · simp
    · rw [List.takeWhile_cons, show jsDotOk '\n' = false from rfl]
      simp
  obtain ⟨d, w', rfl⟩ : ∃ d w', w = d :: w' := by
    cases w with
    | nil => exact absurd rfl hw
    | cons d w' => exact ⟨d, w', rfl⟩
  unfold tryH1
  rw [htw]
  show tryH1K (d :: w' ++ (c :: t') ++ tail) (w'.length + 1) = some (c :: t')
  unfold tryH1K
  have hdrop : (d :: w' ++ (c :: t') ++ tail).drop (w'.length + 1) = (c :: t') ++ tail := by
    rw [List.append_assoc]
    show ((d :: w') ++ ((c :: t') ++ tail)).drop (d :: w').length = _
    exact List.drop_left _ _
  rw [hdrop, hlnl]
  simp

/-- A line that is neither a proper H1 nor a hash-blank line is skipped by
the scan, both mid-document and as the final line. -/
theorem line_skip (l rest : List Char) (hnl : ∀ c ∈ l, jsLineTerm c = false)
    (hhb : hashBlank l = false) (hp : properH1 l = false) :
    findH1 (l ++ '\n' :: rest) true = findH1 rest true ∧ findH1 l true = none := by
  cases l with
  | nil => exact ⟨rfl, rfl⟩
  | cons c l' =>
    by_cases hc : c = '#'
    · subst hc
      cases l' with
      | nil => exact absurd hhb (by decide)
      | cons d l'' =>
        have hnl' : ∀ e ∈ d :: l'', jsLineTerm e = false :=
          fun e he => hnl e (List.mem_cons_of_mem _ he)
        by_cases hd : jsWs d = true
        · exfalso
          by_cases he : ((d :: l'').dropWhile jsWs).isEmpty = true
          · unfold hashBlank at hhb
            simp only [hd, he, Bool.and_self] at hhb
            cases hhb
          · unfold properH1 at hp
            simp only [hd, Bool.true_and] at hp
            have he' : (List.dropWhile jsWs (d :: l'')).isEmpty = false := by
              cases hee : (List.dropWhile jsWs (d :: l'')).isEmpty
              · rfl
              · exact absurd hee he
            rw [he'] at hp
            simp at hp
        · have hd' : jsWs d = false := by
            cases hdd : jsWs d
            · rfl
            · exact absurd hdd hd
          constructor
          · show (match tryH1 ((d :: l'') ++ '\n' :: rest) with
              | some g => some g
              | none => findH1 ((d :: l'') ++ '\n' :: rest) false) = findH1 rest true
            rw [tryH1_no_ws (by rw [List.cons_append, List.takeWhile_cons, hd']; rfl)]
            exact findH1_false_append (d :: l'') rest hnl'
          · show (match tryH1 (d :: l'') with
              | some g => some g
              | none => findH1 (d :: l'') false) = none
            rw [tryH1_no_ws (by rw [List.takeWhile_cons, hd']; rfl)]
            exact findH1_false_none (d :: l'') hnl'
    · have hnl' : ∀ e ∈ l', jsLineTerm e = false :=
        fun e he => hnl e (List.mem_cons_of_mem _ he)
      have hcne : (decide (c = '#')) = false := decide_eq_false hc
      have hcnl : jsLineTerm c = false := hnl c (List.mem_cons_self c l')
      constructor
      · show findH1 ((c :: l') ++ '\n' :: rest) true = findH1 rest true
        rw [List.cons_append]
        show (if (true && decide (c = '#')) = true then
            match tryH1 (l' ++ '\n' :: rest) with
            | some g => some g
            | none => findH1 (l' ++ '\n' :: rest) false
          else findH1 (l' ++ '\n' :: rest) (jsLineTerm c)) = findH1 rest true
        rw [hcne, hcnl]
        simp only [Bool.and_false, Bool.false_eq_true, if_false]
        exact findH1_false_append l' rest hnl'
      · show (if (true && decide (c = '#')) = true then
            match tryH1 l' with
            | some g => some g
            | none => findH1 l' false
          else findH1 l' (jsLineTerm c)) = none
        rw [hcne, hcnl]
        simp only [Bool.and_false, Bool.false_eq_true, if_false]
        exact findH1_false_none l' hnl'

/-- A proper H1 line is hit by the scan: the captured group is the line text
after the `#` marker with its leading whitespace dropped. -/
theorem line_hit (l rest : List Char) (hnl : ∀ c ∈ l, jsLineTerm c = false)
    (hp : properH1 l = true) :
    findH1 (l ++ '\n' :: rest) true = some ((l.drop 1).dropWhile jsWs) ∧
    findH1 l true = some ((l.drop 1).dropWhile jsWs) := by
  cases l with
  | nil => exact absurd hp (by decide)
  | cons c r =>
    have hc : c = '#' := by
      by_contra h
      unfold properH1 at hp
      split at hp
      · rename_i heq
        injection heq with h1 h2
        exact h h1
      · cases hp
    subst hc
    cases r with
    | nil => exact absurd hp (by decide)
    | cons d rr =>
    have hp' : (jsWs d && !((d :: rr).dropWhile jsWs).isEmpty) = true := hp
    have h1 : jsWs d = true := by
      cases hj : jsWs d
      · rw [hj] at hp'
        simp at hp'
      · rfl
    have h2 : ((d :: rr).dropWhile jsWs).isEmpty = false := by
      cases hj : ((d :: rr).dropWhile jsWs).isEmpty
      · rfl
      · rw [hj] at hp'
        simp [h1] at hp'
    set r := d :: rr with hr
    have hw : r.takeWhile jsWs ≠ [] := by
      rw [hr, List.takeWhile_cons, if_pos h1]
      simp
    have hwall : ∀ e ∈ r.takeWhile jsWs, jsWs e = true :=
      fun e he => List.mem_takeWhile_imp he
    have ht : r.dropWhile jsWs ≠ [] := by
      intro habs
      rw [hr] at habs
      rw [habs] at h2
      cases h2
    have htnl : ∀ e ∈ r.dropWhile jsWs, jsDotOk e = true := fun e he => by
      simp [jsDotOk, hnl e (List.mem_cons_of_mem _ ((List.dropWhile_sublist jsWs).subset he))]
    have hth : ∀ e, (r.dropWhile jsWs).head? = some e → jsWs e = false :=
      fun e he => head_dropWhile_false jsWs r he
    have hsplit : r = r.takeWhile jsWs ++ r.dropWhile jsWs :=
      (List.takeWhile_append_dropWhile jsWs r).symm
    constructor
    · have harr : r ++ '\n' :: rest =
          r.takeWhile jsWs ++ (r.dropWhile jsWs ++ '\n' :: rest) := by
        conv_lhs => rw [hsplit]
        rw [List.append_assoc]
      show (match tryH1 (r ++ '\n' :: rest) with
        | some g => some g
        | none => findH1 (r ++ '\n' :: rest) false) = some (r.dropWhile jsWs)
      rw [harr]
      rw [show r.takeWhile jsWs ++ (r.dropWhile jsWs ++ '\n' :: rest) =
          r.takeWhile jsWs ++ r.dropWhile jsWs ++ '\n' :: rest from
        (List.append_assoc _ _ _).symm]
      rw [tryH1_proper _ _ _ hw hwall ht htnl hth (Or.inr ⟨rest, rfl⟩)]
    · have harr2 : r = r.takeWhile jsWs ++ r.dropWhile jsWs ++ [] := by
        rw [List.append_assoc, List.append_nil]
        exact hsplit
      show (match tryH1 r with
        | some g => some g
        | none => findH1 r false) = some (r.dropWhile jsWs)
      conv_lhs => rw [harr2]
      rw [tryH1_proper _ _ _ hw hwall ht htnl hth (Or.inl rfl)]

/-- The document-level scan is the per-line search: the captured group of
the first match is the first proper H1 line's text, provided no hash-blank
line lets the whitespace matcher leak across a newline. -/
theorem findH1_join (lines : List (List Char))
    (h : ∀ l ∈ lines, noTerm l = true ∧ hashBlank l = false) :
    findH1 (joinLines lines) true =
      (lines.find? properH1).map (fun l0 => (l0.drop 1).dropWhile jsWs) := by
  induction lines with
  | nil => rfl
  | cons l ls ih =>
    have hl := h l (List.mem_cons_self l ls)
    have hnl := noTerm_spec hl.1
    have hls := fun x hx => h x (List.mem_cons_of_mem _ hx)
    by_cases hp : properH1 l = true
    · rw [List.find?_cons_of_pos ls hp]
      show findH1 (joinLines (l :: ls)) true = some ((l.drop 1).dropWhile jsWs)
      cases ls with
      | nil => exact (line_hit l [] hnl hp).2
      | cons l2 ls2 =>
        show findH1 (l ++ '\n' :: joinLines (l2 :: ls2)) true = _
        exact (line_hit l (joinLines (l2 :: ls2)) hnl hp).1
    · rw [List.find?_cons_of_neg ls hp]
      have hpf : properH1 l = false := by
        cases hpp : properH1 l
        · rfl
        · exact absurd hpp hp
      cases ls with
      | nil =>
        show findH1 l true = (List.find? properH1 []).map _
        rw [(line_skip l [] hnl hl.2 hpf).2]
        rfl
      | cons l2 ls2 =>
        show findH1 (l ++ '\n' :: joinLines (l2 :: ls2)) true = _
        rw [(line_skip l (joinLines (l2 :: ls2)) hnl hl.2 hpf).1]
        exact ih hls

/-- C8 (counterexample): the document `#\nReal\n# Actual` contains exactly
one proper level-1 heading line, `# Actual`, yet `extractTitle` returns
`Real`: the `\s+` of the H1 regex crosses the newline after the bare `#`
and captures the following line. -/
theorem C8_title_counterexample :
    properH1 ("# Actual".data) = true ∧
    properH1 ("#".data) = false ∧
    properH1 ("Real".data) = false ∧
    extractTitle "#\nReal\n# Actual" "f.md" = "Real" ∧
    "Real" ≠ "Actual" :=
  ⟨rfl, rfl, rfl, rfl, by decide⟩

/-- C8 (amended): for a document assembled from newline-separated lines
that contain no further ECMAScript line terminators (CR, U+2028, U+2029 —
each of which the multiline regex also treats as a line break) and none of
which is a bare `#` followed only by whitespace, `extractTitle` returns the
trimmed heading text of the *first* proper H1 line when one exists, and
otherwise the filename with the note extension stripped and `-`/`_`
replaced by spaces. -/
theorem C8_title (lines : List (List Char)) (relPath : String)
    (h : ∀ l ∈ lines, noTerm l = true ∧ hashBlank l = false) :
    (∀ l0, lines.find? properH1 = some l0 →
      extractTitle (joinLines lines).asString relPath = (jsTrim (l0.drop 1)).asString) ∧
    (lines.find? properH1 = none →
      extractTitle (joinLines lines).asString relPath = fallbackTitle relPath) := by
  have hj := findH1_join lines h
  constructor
  · intro l0 hf
    show (match findH1 (joinLines lines) true with
      | some g => (jsTrim g).asString
      | none => fallbackTitle relPath) = (jsTrim (l0.drop 1)).asString
    rw [hj, hf]
    show (jsTrim ((l0.drop 1).dropWhile jsWs)).asString = (jsTrim (l0.drop 1)).asString
    rw [jsTrim_dropWhile]
  · intro hf
    show (match findH1 (joinLines lines) true with
      | some g => (jsTrim g).asString
      | none => fallbackTitle relPath) = fallbackTitle relPath
    rw [hj, hf]
    rfl

/-- C8 witness: on the three-line document `intro`, `# My Title `, and
`# Second`, the first H1 line wins and its text is trimmed. -/
theorem C8_title_witness :
    extractTitle "intro\n# My Title \n# Second" "f.md" = "My Title" := by
  have h := (C8_title ["intro".data, "# My Title ".data, "# Second".data] "f.md"
    (by decide)).1 ("# My Title ".data) (by decide)
  exact h

/-- `ScanReach` on a cons is the head entry's contribution or the tail's. -/
theorem scanReach_cons (p : String) (t : FSTree) (ts : FSList) (q : String) :
    ScanReach p (.cons t ts) q ↔ EntryReach p t q ∨ ScanReach p ts q := by
  constructor
  · intro h
    cases h with
    | here hmem hmd =>
      simp only [FSList.toList] at hmem
      rcases List.mem_cons.mp hmem with heq | hmem'
      · rw [← heq]
        exact Or.inl (EntryReach.file hmd)
      · exact Or.inr (ScanReach.here hmem' hmd)
    | sub hmem h1 h2 hrec =>
      simp only [FSList.toList] at hmem
      rcases List.mem_cons.mp hmem with heq | hmem'
      · rw [← heq]
        exact Or.inl (EntryReach.dir h1 h2 hrec)
      · exact Or.inr (ScanReach.sub hmem' h1 h2 hrec)
  · intro h
    rcases h with h | h
    · cases h with
      | file hmd => exact ScanReach.here (List.mem_cons_self _ _) hmd
      | dir h1 h2 hrec => exact ScanReach.sub (List.mem_cons_self _ _) h1 h2 hrec
    · cases h with
      | here hmem hmd => exact ScanReach.here (List.mem_cons_of_mem _ hmem) hmd
      | sub hmem h1 h2 hrec => exact ScanReach.sub (List.mem_cons_of_mem _ hmem) h1 h2 hrec

/-- Nothing is reachable from an empty entry list. -/
theorem scanReach_nil (p : String) (q : String) : ¬ ScanReach p .nil q := by
  intro h
  cases h with
  | here hmem _ => cases hmem
  | sub hmem _ _ _ => cases hmem

mutual

/-- Membership in one entry's scan output is `EntryReach`. -/
theorem mem_walkEntry (p : String) (t : FSTree) (q : String) :
    q ∈ (walkEntry p t).1 ↔ EntryReach p t q := by
  cases t with
  | file name content mtime size =>
    show q ∈ (if strEndsWith name ".md" then [pjoin p name] else []) ↔ _
    by_cases hmd : strEndsWith name ".md" = true
    · rw [if_pos hmd]
      constructor
      · intro hq
        rcases List.mem_singleton.mp hq with rfl
        exact EntryReach.file hmd
      · intro h
        cases h with
        | file _ => exact List.mem_singleton.mpr rfl
    · rw [if_neg hmd]
      constructor
      · intro hq
        cases hq
      · intro h
        cases h with
        | file hmd' => exact absurd hmd' hmd
  | dir name readable es =>
    by_cases hex : (name = ".obsidian" || name = ".git") = true
    · show q ∈ (walkEntry p (.dir name readable es)).1 ↔ _
      unfold walkEntry
      rw [if_pos hex]
      constructor
      · intro hq
        cases hq
      · intro h
        cases h with
        | dir h1 h2 _ =>
          rcases (by simpa using hex : name = ".obsidian" ∨ name = ".git") with he | he
          · exact absurd he h1
          · exact absurd he h2
    · cases readable with
      | false =>
        show q ∈ (walkEntry p (.dir name false es)).1 ↔ _
        unfold walkEntry
        rw [if_neg hex]
        show q ∈ ([] : List String) ↔ _
        constructor
        · intro hq
          cases hq
        · intro h
          cases h
      | true =>
        show q ∈ (walkEntry p (.dir name true es)).1 ↔ _
        unfold walkEntry
        rw [if_neg hex, if_pos rfl]
        rw [mem_walkEntries (pjoin p name) es q]
        constructor
        · intro h
          refine EntryReach.dir ?_ ?_ h
          · intro habs
            exact hex (by simp [habs])
          · intro habs
            exact hex (by simp [habs])
        · intro h
          cases h with
          | dir _ _ hrec => exact hrec

/-- Membership in the scan output of an entry list is `ScanReach`. -/
theorem mem_walkEntries (p : String) (es : FSList) (q : String) :
    q ∈ (walkEntries p es).1 ↔ ScanReach p es q := by
  cases es with
  | nil =>
    constructor
    · intro hq
      cases hq
    · intro h
      exact absurd h (scanReach_nil p q)
  | cons t ts =>
    show q ∈ (walkEntry p t).1 ++ (walkEntries p ts).1 ↔ _
    rw [List.mem_append, mem_walkEntry p t q, mem_walkEntries p ts q]
    exact (scanReach_cons p t ts q).symm

end

/-- `pjoin` at the character level. -/
theorem pjoin_data (p n : String) : (pjoin p n).data = p.data ++ ('/' :: n.data) := by
  show ((p ++ "/") ++ n).data = _
  rw [String.data_append, String.data_append, List.append_assoc]
  rfl

/-- Unpack the well-formedness of a cons cell. -/
theorem wfFSList_cons {t : FSTree} {ts : FSList} (h : wfFSList (.cons t ts) = true) :
    wfTree t = true ∧ ((ts.toList.map nameOf).contains (nameOf t)) = false ∧
      wfFSList ts = true := by
  unfold wfFSList at h
  refine ⟨?_, ?_, ?_⟩
  · cases hj : wfTree t
    · rw [hj] at h
      simp at h
    · rfl
  · cases hj : (ts.toList.map nameOf).contains (nameOf t)
    · rfl
    · rw [hj] at h
      simp at h
  · cases hj : wfFSList ts
    · rw [hj] at h
      simp at h
    · rfl

/-- Well-formedness is inherited by every member. -/
theorem wfFSList_mem : ∀ {es : FSList}, wfFSList es = true →
    ∀ t ∈ es.toList, wfTree t = true := by
  intro es
  match es with
  | .nil => intro _ t ht; cases ht
  | .cons t2 ts =>
    intro h t ht
    rcases wfFSList_cons h with ⟨h1, _, h3⟩
    simp only [FSList.toList] at ht
    rcases List.mem_cons.mp ht with rfl | ht'
    · exact h1
    · exact wfFSList_mem h3 t ht'

/-- A well-formed node has a well-formed name. -/
theorem okName_of_wfTree {t : FSTree} (h : wfTree t = true) :
    okName (nameOf t) = true := by
  cases t with
  | file n c m sz => exact h
  | dir n r es =>
    show okName n = true
    unfold wfTree at h
    cases hj : okName n
    · rw [hj] at h
      simp at h
    · rfl

/-- A well-formed name contains no separator. -/
theorem okName_no_slash {n : String} (h : okName n = true) : '/' ∉ n.data := by
  intro hmem
  unfold okName at h
  have h2 : (n.data.contains '/') = true := List.elem_eq_true_of_mem hmem
  rw [h2] at h
  simp at h

/-- Two segment decompositions with separator-free first segments agree on
the first segment. -/
theorem seg_disjoint : ∀ (n1 n2 s1 s2 : List Char), '/' ∉ n1 → '/' ∉ n2 →
    (s1 = [] ∨ s1.head? = some '/') → (s2 = [] ∨ s2.head? = some '/') →
    n1 ++ s1 = n2 ++ s2 → n1 = n2 := by
  intro n1
  induction n1 with
  | nil =>
    intro n2 s1 s2 h1 h2 hs1 hs2 heq
    cases n2 with
    | nil => rfl
    | cons c2 m2 =>
      exfalso
      rw [List.nil_append] at heq
      rcases hs1 with rfl | hh
      · cases heq
      · rw [heq] at hh
        simp only [List.cons_append, List.head?_cons, Option.some_inj] at hh
        exact h2 (hh ▸ List.mem_cons_self c2 m2)
  | cons c1 m1 ih =>
    intro n2 s1 s2 h1 h2 hs1 hs2 heq
    cases n2 with
    | nil =>
      exfalso
      rw [List.nil_append] at heq
      rcases hs2 with rfl | hh
      · cases heq
      · rw [← heq] at hh
        simp only [List.cons_append, List.head?_cons, Option.some_inj] at hh
        exact h1 (hh ▸ List.mem_cons_self c1 m1)
    | cons c2 m2 =>
      simp only [List.cons_append, List.cons.injEq] at heq
      obtain ⟨hc, hm⟩ := heq
      subst hc
      rw [ih m2 s1 s2 (fun hx => h1 (List.mem_cons_of_mem _ hx))
        (fun hx => h2 (List.mem_cons_of_mem _ hx)) hs1 hs2 hm]

mutual

/-- Every path output by one entry starts with the entry's name segment. -/
theorem walkEntry_shape (p : String) (t : FSTree) (q : String)
    (hq : q ∈ (walkEntry p t).1) :
    ∃ s : List Char, q.data = p.data ++ ('/' :: ((nameOf t).data ++ s)) ∧
      (s = [] ∨ s.head? = some '/') := by
  cases t with
  | file name content mtime size =>
    by_cases hmd : strEndsWith name ".md" = true
    · rw [show (walkEntry p (.file name content mtime size)).1 =
          (if strEndsWith name ".md" then [pjoin p name] else []) from rfl,
        if_pos hmd] at hq
      rcases List.mem_singleton.mp hq with rfl
      refine ⟨[], ?_, Or.inl rfl⟩
      rw [List.append_nil, pjoin_data]
      exact rfl
    · rw [show (walkEntry p (.file name content mtime size)).1 =
          (if strEndsWith name ".md" then [pjoin p name] else []) from rfl,
        if_neg hmd] at hq
      cases hq
  | dir name readable es =>
    by_cases hex : (name = ".obsidian" || name = ".git") = true
    · unfold walkEntry at hq
      rw [if_pos hex] at hq
      cases hq
    · cases readable with
      | false =>
        unfold walkEntry at hq
        rw [if_neg hex] at hq
        cases hq
      | true =>
        unfold walkEntry at hq
        rw [if_neg hex, if_pos rfl] at hq
        obtain ⟨t2, _, s2, hq2, _⟩ := walkEntries_shape (pjoin p name) es q hq
        refine ⟨'/' :: ((nameOf t2).data ++ s2), ?_, Or.inr rfl⟩
        rw [hq2, pjoin_data, List.append_assoc]
        exact rfl

/-- Every path output by an entry list starts with some member's name
segment. -/
theorem walkEntries_shape (p : String) (es : FSList) (q : String)
    (hq : q ∈ (walkEntries p es).1) :
    ∃ t ∈ es.toList, ∃ s : List Char,
      q.data = p.data ++ ('/' :: ((nameOf t).data ++ s)) ∧
      (s = [] ∨ s.head? = some '/') := by
  cases es with
  | nil => cases hq
  | cons t ts =>
    rw [show (walkEntries p (.cons t ts)).1 =
        (walkEntry p t).1 ++ (walkEntries p ts).1 from rfl, List.mem_append] at hq
    rcases hq with hq | hq
    · obtain ⟨s, hs, hh⟩ := walkEntry_shape p t q hq
      exact ⟨t, List.mem_cons_self _ _, s, hs, hh⟩
    · obtain ⟨t2, ht2, s, hs, hh⟩ := walkEntries_shape p ts q hq
      exact ⟨t2, List.mem_cons_of_mem _ ht2, s, hs, hh⟩

end

mutual

/-- One well-formed entry lists each path at most once. -/
theorem nodup_walkEntry (p : String) (t : FSTree) (hwf : wfTree t = true) :
    (walkEntry p t).1.Nodup := by
  cases t with
  | file name content mtime size =>
    rw [show (walkEntry p (.file name content mtime size)).1 =
        (if strEndsWith name ".md" then [pjoin p name] else []) from rfl]
    by_cases hmd : strEndsWith name ".md" = true
    · rw [if_pos hmd]
      exact List.nodup_singleton _
    · rw [if_neg hmd]
      exact List.nodup_nil
  | dir name readable es =>
    by_cases hex : (name = ".obsidian" || name = ".git") = true
    · unfold walkEntry
      rw [if_pos hex]
      exact List.nodup_nil
    · cases readable with
      | false =>
        unfold walkEntry
        rw [if_neg hex]
        exact List.nodup_nil
      | true =>
        unfold walkEntry
        rw [if_neg hex, if_pos rfl]
        unfold wfTree at hwf
        have hes : wfFSList es = true := by
          cases hj : wfFSList es
          · rw [hj] at hwf
            simp at hwf
          · rfl
        exact nodup_walkEntries (pjoin p name) es hes

/-- A well-formed entry list lists each path at most once. -/
theorem nodup_walkEntries (p : String) (es : FSList) (hwf : wfFSList es = true) :
    (walkEntries p es).1.Nodup := by
  cases es with
  | nil => exact List.nodup_nil
  | cons t ts =>
    rcases wfFSList_cons hwf with ⟨h1, h2, h3⟩
    rw [show (walkEntries p (.cons t ts)).1 =
        (walkEntry p t).1 ++ (walkEntries p ts).1 from rfl]
    refine List.Nodup.append (nodup_walkEntry p t h1) (nodup_walkEntries p ts h3) ?_
    rw [List.disjoint_left]
    intro q hq1 hq2
    obtain ⟨s1, hqs1, hh1⟩ := walkEntry_shape p t q hq1
    obtain ⟨t2, ht2, s2, hqs2, hh2⟩ := walkEntries_shape p ts q hq2
    have hnames : nameOf t ≠ nameOf t2 := by
      intro habs
      have : (ts.toList.map nameOf).contains (nameOf t) = true :=
        List.elem_eq_true_of_mem (habs ▸ List.mem_map_of_mem nameOf ht2)
      rw [this] at h2
      cases h2
    have hok1 : '/' ∉ (nameOf t).data := okName_no_slash (okName_of_wfTree h1)
    have hok2 : '/' ∉ (nameOf t2).data :=
      okName_no_slash (okName_of_wfTree (wfFSList_mem h3 t2 ht2))
    have heq : (nameOf t).data ++ s1 = (nameOf t2).data ++ s2 := by
      have h0 : p.data ++ ('/' :: ((nameOf t).data ++ s1)) =
          p.data ++ ('/' :: ((nameOf t2).data ++ s2)) := by
        rw [← hqs1, ← hqs2]
      have h0' := List.append_cancel_left h0
      exact congrArg List.tail h0'
    have hdata : (nameOf t).data = (nameOf t2).data :=
      seg_disjoint _ _ _ _ hok1 hok2 hh1 hh2 heq
    refine hnames ?_
    cases hnt : nameOf t with
    | mk d1 =>
      cases hnt2 : nameOf t2 with
      | mk d2 =>
        rw [hnt, hnt2] at hdata
        cases hdata
        rfl

end

/-- C9: the scanner enumerates exactly the `.md` files reachable through
readable, non-excluded directories — each exactly once when sibling names
are well-formed and distinct — and an unreadable directory is reported and
contributes nothing, leaving siblings and the scan as a whole intact. -/
theorem C9_scanner (p : String) (es : FSList) :
    (∀ q : String, q ∈ (walkEntries p es).1 ↔ ScanReach p es q) ∧
    (wfFSList es = true → (walkEntries p es).1.Nodup) ∧
    (∀ (name : String) (es2 : FSList), name ≠ ".obsidian" → name ≠ ".git" →
      walkEntry p (FSTree.dir name false es2) =
        ([], [LogMsg.errorDir (pjoin p name)])) := by
  refine ⟨fun q => mem_walkEntries p es q, fun h => nodup_walkEntries p es h, ?_⟩
  intro name es2 h1 h2
  unfold walkEntry
  rw [if_neg (by simp [h1, h2])]
  rfl

/-- C9 witness: on the concrete fixture (a matching file, an excluded
`.git` directory, a readable subdirectory, an unreadable directory, and a
non-note file), the scan output is duplicate-free and the unreadable
directory contributes only a logged error. -/
theorem C9_scanner_witness :
    wfFSList esScan = true ∧
    (walkEntries "/r" esScan).1.Nodup ∧
    (walkEntries "/r" esScan).1 = ["/r/a.md", "/r/sub/b.md"] ∧
    walkEntry "/r" (FSTree.dir "bad" false (.ofList [FSTree.file "c.md" "C" 3 3])) =
      ([], [LogMsg.errorDir "/r/bad"]) :=
  ⟨by decide, (C9_scanner "/r" esScan).2.1 (by decide), rfl,
    (C9_scanner "/r" esScan).2.2 "bad" (.ofList [FSTree.file "c.md" "C" 3 3])
      (by decide) (by decide)⟩

end GhostAI
